import Mathlib

/-!
Verification of the `src/controllers/bootcamps.js` controller of the
bootcamp-api repository.

The controller is embedded shallowly:

* The list endpoint (`getBootcamps`) serializes the non-control query
  parameters with `JSON.stringify`, rewrites the comparison keywords with the
  regex `\b(gt|gte|lt|lte|in)\b` (prefixing `$`), and re-parses the result
  with `JSON.parse`.  All three steps are modelled literally at the character
  level (`stringifyQuery`, `scan`, `jsonParse`).  Query values are either
  strings or one level of nested string-valued objects, which is the shape
  the Express query-string parser produces for `field=literal` and
  `field[op]=literal` parameters.
* `parseInt(x, 10) || default` is modelled by `jsParseInt`/`intOrDefault`
  (`NaN` and `0` are falsy, negative numbers are not).
* Handlers that talk to the database are modelled as pure functions over an
  explicit store (a list of records); fallible steps return `Option` or an
  explicit error constructor.
-/

/-- A JavaScript word character, as used by the regex `\b` boundary:
`[A-Za-z0-9_]`. -/
def isWordChar (c : Char) : Bool := c.isAlphanum || c == '_'

/-- Word boundary on the right of a match: the following character (if any)
is a non-word character. -/
def bdry : List Char → Bool
  | [] => true
  | c :: _ => !isWordChar c

/-- Try to match the literal token `t` at the head of `cs`, requiring a word
boundary after it (the boundary before it is checked by the caller).
Mirrors one alternative of the regex `\b(gt|gte|lt|lte|in)\b`. -/
def tryTok (t : String) (cs : List Char) : Option (List Char) :=
  if cs.take t.toList.length = t.toList ∧ bdry (cs.drop t.toList.length) = true then
    some (cs.drop t.toList.length)
  else none

/-- Match one of the five operator keywords at the head of `cs`, in the
regex's alternation order `gt|gte|lt|lte|in` (a shorter alternative that
fails its trailing `\b` backtracks into the longer one, which is exactly
first-match over this list with the boundary folded into each attempt). -/
def matchTok (cs : List Char) : Option (String × List Char) :=
  match tryTok "gt" cs with
  | some r => some ("gt", r)
  | none =>
    match tryTok "gte" cs with
    | some r => some ("gte", r)
    | none =>
      match tryTok "lt" cs with
      | some r => some ("lt", r)
      | none =>
        match tryTok "lte" cs with
        | some r => some ("lte", r)
        | none =>
          match tryTok "in" cs with
          | some r => some ("in", r)
          | none => none

/-- One pass of `queryStr.replace(/\b(gt|gte|lt|lte|in)\b/g, m => "$" + m)`.
The first argument counts characters of an already-emitted token that still
have to be skipped; the `Bool` records whether the previous character was a
word character (no match may start right after a word character). -/
def scanAux : Nat → Bool → List Char → List Char
  | _, _, [] => []
  | skip + 1, _, _ :: rest => scanAux skip true rest
  | 0, true, c :: rest => c :: scanAux 0 (isWordChar c) rest
  | 0, false, c :: rest =>
    match matchTok (c :: rest) with
    | some (t, _) => '$' :: (t.toList ++ scanAux (t.toList.length - 1) true rest)
    | none => c :: scanAux 0 (isWordChar c) rest

/-- The global regex replacement over a character list. -/
def scan (prevWord : Bool) (cs : List Char) : List Char := scanAux 0 prevWord cs

/-- A query value as produced by the Express query parser: a literal string,
or one level of nesting (`field[gt]=100` parses to an object). -/
inductive QVal where
  | str : String → QVal
  | obj : List (String × String) → QVal
  deriving Repr, DecidableEq

/-- `req.query`: parameter names mapped to values, in insertion order. -/
abbrev RawQuery := List (String × QVal)

/-- Characters escaped by `JSON.stringify` that can appear in a query string
value (quote, backslash, and the common control characters). -/
def escapeChar (c : Char) : List Char :=
  if c == '"' then ['\\', '"']
  else if c == '\\' then ['\\', '\\']
  else if c == '\n' then ['\\', 'n']
  else if c == '\t' then ['\\', 't']
  else if c == '\r' then ['\\', 'r']
  else [c]

/-- `JSON.stringify` escaping of a string body. -/
def escape (s : String) : List Char := (s.toList.map escapeChar).flatten

/-- A JSON string literal: `"` body `"`. -/
def quoteStr (s : String) : List Char := '"' :: (escape s ++ ['"'])

/-- Comma-join the serialized members of a JSON object. -/
def joinComma : List (List Char) → List Char
  | [] => []
  | [e] => e
  | e :: f :: rest => e ++ ',' :: joinComma (f :: rest)

/-- One member of a nested (inner) object: `"k":"v"`. -/
def stringifyInner (k v : String) : List Char := quoteStr k ++ ':' :: quoteStr v

/-- Serialize a query value. -/
def stringifyVal : QVal → List Char
  | QVal.str s => quoteStr s
  | QVal.obj l => '{' :: (joinComma (l.map fun p => stringifyInner p.1 p.2) ++ ['}'])

/-- One member of the top-level object: `"k":value`. -/
def stringifyPair (k : String) (v : QVal) : List Char := quoteStr k ++ ':' :: stringifyVal v

/-- `JSON.stringify(reqQuery)` over the modelled query shape. -/
def stringifyQuery (q : RawQuery) : List Char :=
  '{' :: (joinComma (q.map fun p => stringifyPair p.1 p.2) ++ ['}'])

/-- Inverse of `escapeChar` on the escaped-character alphabet. -/
def unescapeChar (c : Char) : Option Char :=
  if c == '"' then some '"'
  else if c == '\\' then some '\\'
  else if c == 'n' then some '\n'
  else if c == 't' then some '\t'
  else if c == 'r' then some '\r'
  else none

/-- Parse the body of a JSON string literal up to its closing quote. -/
def parseStringBody : List Char → Option (List Char × List Char)
  | [] => none
  | c :: rest =>
    if c == '"' then some ([], rest)
    else if c == '\\' then
      match rest with
      | [] => none
      | e :: rest' =>
        match unescapeChar e with
        | some d =>
          match parseStringBody rest' with
          | some (l, r) => some (d :: l, r)
          | none => none
        | none => none
    else
      match parseStringBody rest with
      | some (l, r) => some (c :: l, r)
      | none => none

/-- Parse a JSON string literal. -/
def parseJString (cs : List Char) : Option (String × List Char) :=
  match cs with
  | '"' :: rest =>
    match parseStringBody rest with
    | some (l, r) => some (⟨l⟩, r)
    | none => none
  | _ => none

/-- Parse the members of an inner object after its `{`, consuming the
closing `}`.  The fuel bounds the number of members. -/
def parseInnerMembers : Nat → List Char → Option (List (String × String) × List Char)
  | 0, _ => none
  | fuel + 1, cs =>
    match parseJString cs with
    | none => none
    | some (k, r1) =>
      match r1 with
      | ':' :: r2 =>
        match parseJString r2 with
        | none => none
        | some (v, r3) =>
          match r3 with
          | ',' :: r4 =>
            match parseInnerMembers fuel r4 with
            | none => none
            | some (l, r5) => some ((k, v) :: l, r5)
          | '}' :: r4 => some ([(k, v)], r4)
          | _ => none
      | _ => none

/-- Parse a JSON value of the modelled shape (string, or object of strings). -/
def parseValue (fuel : Nat) (cs : List Char) : Option (QVal × List Char) :=
  match cs with
  | '{' :: rest =>
    match rest with
    | '}' :: r => some (QVal.obj [], r)
    | _ =>
      match parseInnerMembers fuel rest with
      | some (l, r) => some (QVal.obj l, r)
      | none => none
  | _ =>
    match parseJString cs with
    | some (s, r) => some (QVal.str s, r)
    | none => none

/-- Parse the members of the top-level object after its `{`, consuming the
closing `}`. -/
def parseTopMembers : Nat → List Char → Option (RawQuery × List Char)
  | 0, _ => none
  | fuel + 1, cs =>
    match parseJString cs with
    | none => none
    | some (k, r1) =>
      match r1 with
      | ':' :: r2 =>
        match parseValue fuel r2 with
        | none => none
        | some (v, r3) =>
          match r3 with
          | ',' :: r4 =>
            match parseTopMembers fuel r4 with
            | none => none
            | some (l, r5) => some ((k, v) :: l, r5)
          | '}' :: r4 => some ([(k, v)], r4)
          | _ => none
      | _ => none

/-- `JSON.parse` over the modelled JSON shape; `none` models a thrown
`SyntaxError`. -/
def jsonParse (cs : List Char) : Option RawQuery :=
  match cs with
  | '{' :: rest =>
    match rest with
    | ['}'] => some []
    | _ =>
      match parseTopMembers cs.length rest with
      | some (q, []) => some q
      | _ => none
  | _ => none

/-- Drop the control keys, as in
`removeFields.forEach(param => delete reqQuery[param])` applied to the copy
of `req.query`. -/
def removeFields (q : RawQuery) : RawQuery :=
  q.filter fun p => !(p.1 == "select" || p.1 == "sort" || p.1 == "page" || p.1 == "limit")

/-- The Filter Translator of the list endpoint:
`JSON.parse(JSON.stringify(reqQuery).replace(/\b(gt|gte|lt|lte|in)\b/g, m => "$" + m))`. -/
def translateQuery (q : RawQuery) : Option RawQuery :=
  jsonParse (scan false (stringifyQuery (removeFields q)))

/-- Numeric value of a run of decimal digits. -/
def digitsVal (l : List Char) : Nat :=
  l.foldl (fun a c => a * 10 + (c.toNat - '0'.toNat)) 0

/-- Parse an optional sign and leading digit run; `none` models `NaN`. -/
def parseIntDigits (cs : List Char) (sign : Int) : Option Int :=
  let ds := cs.takeWhile Char.isDigit
  if ds.isEmpty then none else some (sign * (digitsVal ds : Int))

/-- JavaScript `parseInt(s, 10)`: skip leading whitespace, read an optional
sign and then the longest leading digit run, ignoring trailing characters;
`NaN` (here `none`) when no digit is found. -/
def jsParseInt (s : String) : Option Int :=
  let cs := s.toList.dropWhile fun c => c == ' ' || c == '\t' || c == '\n' || c == '\r'
  match cs with
  | '-' :: rest => parseIntDigits rest (-1)
  | '+' :: rest => parseIntDigits rest 1
  | _ => parseIntDigits cs 1

/-- Look a parameter up in `req.query`. -/
def lookupParam (q : RawQuery) (k : String) : Option QVal :=
  (q.find? fun p => p.1 == k).map fun p => p.2

/-- `parseInt(v, 10) || d`: `NaN` (absent parameter, non-string value or no
digits) and `0` are falsy and fall back to the default; every other value,
negative ones included, is kept. -/
def intOrDefault (v : Option QVal) (d : Int) : Int :=
  match v with
  | some (QVal.str s) =>
    match jsParseInt s with
    | none => d
    | some n => if n = 0 then d else n
  | _ => d

/-- `const page = parseInt(req.query.page, 10) || 1`. -/
def pageOf (q : RawQuery) : Int := intOrDefault (lookupParam q "page") 1

/-- `const limit = parseInt(req.query.limit, 10) || 25`. -/
def limitOf (q : RawQuery) : Int := intOrDefault (lookupParam q "limit") 25

/-- `const startIndex = (page - 1) * limit`. -/
def startIndexOf (q : RawQuery) : Int := (pageOf q - 1) * limitOf q

/-- `const endIndex = page * limit`. -/
def endIndexOf (q : RawQuery) : Int := pageOf q * limitOf q

/-- A `next`/`prev` page descriptor: `{ page, limit }`. -/
structure PageRef where
  page : Int
  limit : Int
  deriving Repr, DecidableEq

/-- The pagination object assembled by the list endpoint. -/
structure Pagination where
  next : Option PageRef := none
  prev : Option PageRef := none
  deriving Repr, DecidableEq

/-- The two conditional blocks that fill `pagination`:
`next` when `endIndex < total`, `prev` when `startIndex > 0`. -/
def paginationOf (page limit total : Int) : Pagination :=
  { next := if page * limit < total then some { page := page + 1, limit := limit } else none
    prev := if (page - 1) * limit > 0 then some { page := page - 1, limit := limit } else none }

/-- A stored document, as a flat field map. -/
abbrev Entity := List (String × String)

/-- Numeric comparison of two stored string values. -/
def cmpNum (fv cv : String) (f : Int → Int → Bool) : Bool :=
  match jsParseInt fv, jsParseInt cv with
  | some a, some b => f a b
  | _, _ => false

/-- Modelled from the spec: evaluation of one FilterPredicate condition by
the storage collaborator (the MongoDB engine, which is not part of this
repository).  Operators compare numerically; anything else is equality. -/
def evalCond (op fv cv : String) : Bool :=
  if op == "$gt" then cmpNum fv cv fun a b => decide (b < a)
  else if op == "$gte" then cmpNum fv cv fun a b => decide (b ≤ a)
  else if op == "$lt" then cmpNum fv cv fun a b => decide (a < b)
  else if op == "$lte" then cmpNum fv cv fun a b => decide (a ≤ b)
  else fv == cv

/-- Modelled from the spec: whether a stored entity matches the translated
FilterPredicate ("a structured, field-scoped set of conditions"). -/
def mongoMatches (filter : RawQuery) (e : Entity) : Bool :=
  filter.all fun p =>
    match p.2 with
    | QVal.str s => e.lookup p.1 == some s
    | QVal.obj conds =>
      conds.all fun c =>
        match e.lookup p.1 with
        | some fv => evalCond c.1 fv c.2
        | none => false

/-- The JSON body of a successful list response:
`{ success, count, pagination, data }`. -/
structure ListResponse where
  success : Bool
  count : Nat
  pagination : Pagination
  data : List Entity
  deriving Repr, DecidableEq

/-- The list endpoint `getBootcamps` over an explicit store.  `total` is
`await Bootcamp.countDocuments()` — called with no filter argument, so it
counts every stored document.  Field selection and sorting are delegated to
the storage collaborator and do not change which documents are returned;
documents are kept whole and in store order here.  A `JSON.parse` failure
(impossible for these inputs, see `translate_wordOnly_characterization`)
surfaces as `none`. -/
def getBootcamps (store : List Entity) (q : RawQuery) : Option ListResponse :=
  (translateQuery q).map fun filter =>
    let page := pageOf q
    let limit := limitOf q
    let startIndex := (page - 1) * limit
    let total : Int := (store.length : Int)
    let results := ((store.filter fun e => mongoMatches filter e).drop startIndex.toNat).take limit.toNat
    { success := true
      count := results.length
      pagination := paginationOf page limit total
      data := results }

/-- Result of a handler: a success payload with its HTTP status, or an
`ErrorResponse(message, statusCode)` handed to `next`.  The status is
optional because `ErrorResponse` can be constructed without one (the photo
size check does exactly that). -/
inductive HResult (α : Type) where
  | ok (status : Nat) (data : α)
  | err (message : String) (status : Option Nat)
  deriving Repr, DecidableEq

/-- A stored bootcamp document (the fields the verified handlers touch). -/
structure Bootcamp where
  _id : String
  photo : Option String := none
  deriving Repr, DecidableEq

/-- A stored course document: its id and the bootcamp it references. -/
structure Course where
  _id : String
  bootcamp : String
  deriving Repr, DecidableEq

/-- `Model.findById(id)` over an explicit store. -/
def findById (bs : List Bootcamp) (i : String) : Option Bootcamp :=
  bs.find? fun b => b._id == i

/-- The guard of `getBootcamp` tests `!Bootcamp` — the imported Mongoose
model, not the `bootcamp` query result.  A module object is always truthy,
so the guard is constantly false. -/
def bootcampModelFalsy : Bool := false

/-- `GET /bootcamps/:id`: fetch by id, then
`if (!Bootcamp) return next(new ErrorResponse(..., 404))`,
else `res.status(200).json({ success: true, msg: bootcamp })`. -/
def getBootcamp (bs : List Bootcamp) (i : String) : HResult (Option Bootcamp) :=
  let bootcamp := findById bs i
  if bootcampModelFalsy then
    HResult.err ("Bootcamp not found with id of " ++ i) (some 404)
  else
    HResult.ok 200 bootcamp

/-- `DELETE /bootcamps/:id`: 404 when the id is unknown; otherwise
`Course.deleteMany({ bootcamp: id })`, then
`Bootcamp.deleteOne({ _id: id })` (removes the first matching document;
`_id` is unique in storage), then `{ success: true, data: {} }`. -/
def deleteBootcamp (bs : List Bootcamp) (cs : List Course) (i : String) :
    List Bootcamp × List Course × HResult Unit :=
  match findById bs i with
  | none => (bs, cs, HResult.err ("Bootcamp not found with id of " ++ i) (some 404))
  | some _ =>
    let cs' := cs.filter fun c => !(c.bootcamp == i)
    let bs' := bs.eraseP fun b => b._id == i
    (bs', cs', HResult.ok 200 ())

/-- `String.prototype.startsWith`, written over character lists so that it
evaluates inside the kernel. -/
def strStartsWith (s pre : String) : Bool :=
  decide (s.toList.take pre.toList.length = pre.toList)

/-- `path.parse(name).ext`: the suffix from the last dot of the name,
empty when there is no dot or the only dot is the leading character. -/
def pathExt (name : String) : String :=
  let cs := name.toList
  let tail := cs.reverse.takeWhile fun c => !(c == '.')
  if tail.length == cs.length then ""
  else if tail.length + 1 == cs.length then ""
  else ⟨'.' :: tail.reverse⟩

/-- An uploaded file as exposed by `express-fileupload`. -/
structure UploadFile where
  name : String
  mimetype : String
  size : Nat
  deriving Repr, DecidableEq

/-- Everything observable about one run of the photo-upload handler: the
response, the filename handed to the file store (`file.mv`) if it was
called at all, and the bootcamp store after any persist. -/
structure UploadResult where
  response : HResult String
  movedFile : Option String
  db : List Bootcamp
  deriving Repr, DecidableEq

/-- `Bootcamp.findByIdAndUpdate(id, { photo: name })`; `_id` is unique in
storage. -/
def updatePhoto (bs : List Bootcamp) (i : String) (newName : String) : List Bootcamp :=
  bs.map fun b => if b._id == i then { b with photo := some newName } else b

/-- `POST /bootcamps/:id/photo`.  Checks, in source order: id found, a file
was uploaded, `file.mimetype.startsWith('image')`, and
`file.size > process.env.MAX_FILE_UPLOAD` — note that this last
`ErrorResponse` is constructed without a status code.  On success the file
is renamed to `Photo_<id><ext>`, moved (`mvFails` models the `file.mv`
callback error), and the filename is persisted. -/
def bootcampPhotoUpload (bs : List Bootcamp) (i : String) (files : Option UploadFile)
    (maxFileUpload : Nat) (mvFails : Bool) : UploadResult :=
  match findById bs i with
  | none =>
    { response := HResult.err ("Bootcamp not found with id of " ++ i) (some 404)
      movedFile := none, db := bs }
  | some bootcamp =>
    match files with
    | none =>
      { response := HResult.err "Please upload a file" (some 400)
        movedFile := none, db := bs }
    | some file =>
      if !(strStartsWith file.mimetype "image") then
        { response := HResult.err "Please upload a file" (some 400)
          movedFile := none, db := bs }
      else if file.size > maxFileUpload then
        { response := HResult.err ("Please upload an image less than " ++ toString maxFileUpload) none
          movedFile := none, db := bs }
      else
        let newName := "Photo_" ++ bootcamp._id ++ pathExt file.name
        if mvFails then
          { response := HResult.err "Problem with file upload" (some 500)
            movedFile := some newName, db := bs }
        else
          { response := HResult.ok 200 newName
            movedFile := some newName, db := updatePhoto bs i newName }

/-- A stored user; `password` is the stored (hashed) credential that
`.select('+password')` makes available. -/
structure User where
  email : String
  password : String
  deriving Repr, DecidableEq

/-- JavaScript falsiness of a request-body string field (`undefined` or
the empty string). -/
def isFalsyStr (v : Option String) : Bool :=
  match v with
  | none => true
  | some s => s == ""

/-- `POST /auth/login`.  `verify` models the bcrypt comparison
`user.matchPassword(password)` and `sign` the token signer
`user.getSignedJwtToken()` — both external collaborators. -/
def login (users : List User) (verify : String → String → Bool) (sign : User → String)
    (email password : Option String) : HResult String :=
  if isFalsyStr email || isFalsyStr password then
    HResult.err "Please provide an email and password" (some 400)
  else
    match users.find? fun u => u.email == email.getD "" with
    | none => HResult.err "Invalid credentials" (some 401)
    | some user =>
      if verify (password.getD "") user.password then HResult.ok 200 (sign user)
      else HResult.err "Invalid credentials" (some 401)

/-- The five operator keywords of the translator's allow-list. -/
def opTokens : List String := ["gt", "gte", "lt", "lte", "in"]

/-- The observable effect of the regex on one standalone word: operator
keywords gain a `$` prefix, every other word is unchanged. -/
def rwTok (s : String) : String := if s ∈ opTokens then "$" ++ s else s

/-- `rwTok` applied to every string of a query value. -/
def rwVal : QVal → QVal
  | QVal.str s => QVal.str (rwTok s)
  | QVal.obj l => QVal.obj (l.map fun p => (rwTok p.1, rwTok p.2))

/-- `rwTok` applied to every key and every string of a query. -/
def rwQuery (q : RawQuery) : RawQuery := q.map fun p => (rwTok p.1, rwVal p.2)

/-- A string made only of word characters (so the regex sees it as one
word, exactly delimited by the JSON quotes around it). -/
def wordOnlyStr (s : String) : Bool := s.toList.all isWordChar

/-- Every string of the value is a single word. -/
def valWordOnly : QVal → Bool
  | QVal.str s => wordOnlyStr s
  | QVal.obj l => l.all fun c => wordOnlyStr c.1 && wordOnlyStr c.2

/-- Every key and string of the query is a single word. -/
def queryWordOnly (q : RawQuery) : Bool :=
  q.all fun p => wordOnlyStr p.1 && valWordOnly p.2

/-- A character that `JSON.stringify` leaves unescaped. -/
def plainChar (c : Char) : Bool :=
  !(c == '"' || c == '\\' || c == '\n' || c == '\t' || c == '\r')

/-- A string that serializes to itself between quotes. -/
def plainStr (s : String) : Bool := s.toList.all plainChar

/-- Every string of the value is plain. -/
def valPlain : QVal → Bool
  | QVal.str s => plainStr s
  | QVal.obj l => l.all fun c => plainStr c.1 && plainStr c.2

/-- Every key and string of the query is plain. -/
def queryPlain (q : RawQuery) : Bool :=
  q.all fun p => plainStr p.1 && valPlain p.2

/-- Number of members of a nested object value (0 for a string value);
used to bound the parser fuel. -/
def innerLen : QVal → Nat
  | QVal.str _ => 0
  | QVal.obj l => l.length

/-- A bound on the number of parsing steps a query needs. -/
def queryWeight : RawQuery → Nat
  | [] => 0
  | p :: l => 1 + innerLen p.2 + queryWeight l

/-- The parameter is absent, has a non-string value, parses to `NaN`, or
parses to `0` — exactly the cases `parseInt(x, 10) || d` defaults. -/
def absentNonNumericOrZero (v : Option QVal) : Bool :=
  match v with
  | some (QVal.str s) =>
    match jsParseInt s with
    | none => true
    | some n => n == 0
  | _ => true

/-- The two-document store of the `totalCount` counterexample. -/
def c1Store : List Entity := [[("name", "x0")], [("name", "x1")]]

/-- The query `?name=x0&limit=1` of the `totalCount` counterexample. -/
def c1Query : RawQuery := [("name", QVal.str "x0"), ("limit", QVal.str "1")]


lemma intOrDefault_default (v : Option QVal) (d : Int)
    (h : absentNonNumericOrZero v = true) : intOrDefault v d = d := by
  rcases v with _ | v
  · rfl
  · rcases v with s | l
    · rcases hj : jsParseInt s with _ | n
      · simp [intOrDefault, hj]
      · simp only [absentNonNumericOrZero, hj, beq_iff_eq] at h
        simp [intOrDefault, hj, h]
    · rfl

/-- Claim C5: `next` is present with `{page+1, limit}` exactly when
`endIndex = page*limit < total`, `prev` is present with `{page-1, limit}`
exactly when `startIndex = (page-1)*limit > 0`, the limit is echoed
unchanged; in particular for `total = 57, limit = 25`, page 1 has
`next = {2,25}` and no `prev`, and page 3 has `prev = {2,25}` and no
`next`. -/
theorem pagination_metadata_spec (page limit total : Int) :
    ((paginationOf page limit total).next = some { page := page + 1, limit := limit } ↔
      page * limit < total) ∧
    ((paginationOf page limit total).prev = some { page := page - 1, limit := limit } ↔
      (page - 1) * limit > 0) ∧
    paginationOf 1 25 57 = { next := some { page := 2, limit := 25 }, prev := none } ∧
    paginationOf 3 25 57 = { next := none, prev := some { page := 2, limit := 25 } } := by
  refine ⟨?_, ?_, by decide, by decide⟩
  · simp only [paginationOf]
    by_cases h : page * limit < total
    · simp [h]
    · simp [h]
  · simp only [paginationOf]
    by_cases h : (page - 1) * limit > 0
    · simp [h]
    · simp [h]

/-- Claim C1: with two stored documents of which exactly one matches the
filter `name=x0`, and `limit=1`, the endpoint reports
`next = {page 2, limit 1}` because `total` is the unfiltered
`countDocuments()` count `2`; had `total` been the filtered count `1`
(as the claim states), the pagination would have been empty
(`paginationOf 1 1 1`). -/
theorem totalCount_unfiltered_bug :
    (getBootcamps c1Store c1Query).map (fun r => (r.count, r.pagination)) =
      some (1, { next := some { page := 2, limit := 1 }, prev := none }) ∧
    translateQuery c1Query = some [("name", QVal.str "x0")] ∧
    (c1Store.filter fun e => mongoMatches [("name", QVal.str "x0")] e).length = 1 ∧
    paginationOf 1 1 1 = { next := none, prev := none } :=
  ⟨rfl, rfl, rfl, by decide⟩

/-- Claim C2: the not-found guard of `GET /bootcamps/:id` tests the
imported model (`!Bootcamp`), which is always truthy, so the handler
answers `200 { success: true, msg: bootcamp }` for every id — including
ids that match nothing, where the claimed 404 never happens and the
payload is `null`. -/
theorem getBootcamp_missing_id_returns_success_bug :
    (∀ (bs : List Bootcamp) (i : String), getBootcamp bs i = HResult.ok 200 (findById bs i)) ∧
    getBootcamp ([] : List Bootcamp) "5f8a" = HResult.ok 200 none :=
  ⟨fun _ _ => rfl, rfl⟩

/-- Claim C4, counterexample: `?page=-1` is truthy for `||`, so the page is
not defaulted to 1 and `startIndex = (-1 - 1) * 25 = -50 < 0`. -/
theorem negative_page_not_defaulted_counterexample :
    pageOf [("page", QVal.str "-1")] = -1 ∧
    startIndexOf [("page", QVal.str "-1")] = -50 ∧
    startIndexOf [("page", QVal.str "-1")] < 0 :=
  ⟨rfl, rfl, by decide⟩

/-- Claim C4, amended: when `page` and `limit` are absent, non-numeric, or
zero, the defaults 1 and 25 apply and `startIndex = 0`; negative values,
however, are kept as-is (see the counterexample). -/
theorem page_limit_default_on_absent_nonnumeric_zero (q : RawQuery)
    (hp : absentNonNumericOrZero (lookupParam q "page") = true)
    (hl : absentNonNumericOrZero (lookupParam q "limit") = true) :
    pageOf q = 1 ∧ limitOf q = 25 ∧ startIndexOf q = 0 := by
  have h1 : pageOf q = 1 := intOrDefault_default _ _ hp
  have h2 : limitOf q = 25 := intOrDefault_default _ _ hl
  refine ⟨h1, h2, ?_⟩
  unfold startIndexOf
  rw [h1, h2]
  decide

theorem page_limit_default_witness :
    absentNonNumericOrZero (lookupParam [("page", QVal.str "abc")] "page") = true ∧
    absentNonNumericOrZero (lookupParam [("page", QVal.str "abc")] "limit") = true ∧
    (pageOf [("page", QVal.str "abc")] = 1 ∧ limitOf [("page", QVal.str "abc")] = 25 ∧
      startIndexOf [("page", QVal.str "abc")] = 0) :=
  ⟨by decide, by decide,
    page_limit_default_on_absent_nonnumeric_zero _ (by decide) (by decide)⟩

/-- Claim C6: an upload whose size exceeds the configured maximum is
rejected before `file.mv` and before any persist — but the
`ErrorResponse` is built without a status code (compare the explicit 400
of the mimetype check), so no 400 is attached to this failure. -/
theorem photo_upload_oversize_missing_status_bug :
    bootcampPhotoUpload [{ _id := "b1" }] "b1"
        (some { name := "a.png", mimetype := "image/png", size := 101 }) 100 false =
      { response := HResult.err "Please upload an image less than 100" none
        movedFile := none
        db := [{ _id := "b1" }] } :=
  rfl

/-- Claim C8: a non-image mimetype is rejected with a 400
`ValidationFailure`; `file.mv` is never called and the store is returned
unchanged (no filename persisted). -/
theorem photo_upload_bad_mimetype_rejected (bs : List Bootcamp) (i : String) (file : UploadFile)
    (maxF : Nat) (mvF : Bool) (b : Bootcamp)
    (hb : findById bs i = some b)
    (hm : strStartsWith file.mimetype "image" = false) :
    bootcampPhotoUpload bs i (some file) maxF mvF =
      { response := HResult.err "Please upload a file" (some 400)
        movedFile := none
        db := bs } := by
  unfold bootcampPhotoUpload
  rw [hb]
  simp [hm]

theorem photo_upload_bad_mimetype_rejected_witness :
    findById [{ _id := "b1" }] "b1" = some { _id := "b1" } ∧
    strStartsWith "text/plain" "image" = false ∧
    bootcampPhotoUpload [{ _id := "b1" }] "b1"
        (some { name := "a.txt", mimetype := "text/plain", size := 10 }) 100 false =
      { response := HResult.err "Please upload a file" (some 400)
        movedFile := none
        db := [{ _id := "b1" }] } :=
  ⟨rfl, rfl, photo_upload_bad_mimetype_rejected _ _ _ _ _ _ rfl rfl⟩

/-- Claim C7: a wrong password for an existing user and an unknown email
produce the same `401 Invalid credentials` response, so the two runs are
indistinguishable. -/
theorem login_wrong_password_indistinguishable
    (users : List User) (verify : String → String → Bool) (sign : User → String)
    (e p e' p' : String) (u : User)
    (he : e ≠ "") (hp : p ≠ "") (he' : e' ≠ "") (hp' : p' ≠ "")
    (hu : users.find? (fun x => x.email == e) = some u)
    (hv : verify p u.password = false)
    (hu' : users.find? (fun x => x.email == e') = none) :
    login users verify sign (some e) (some p) = HResult.err "Invalid credentials" (some 401) ∧
    login users verify sign (some e') (some p') = HResult.err "Invalid credentials" (some 401) ∧
    login users verify sign (some e) (some p) = login users verify sign (some e') (some p') := by
  have h1 : login users verify sign (some e) (some p) =
      HResult.err "Invalid credentials" (some 401) := by
    simp [login, isFalsyStr, he, hp, hu, hv]
  have h2 : login users verify sign (some e') (some p') =
      HResult.err "Invalid credentials" (some 401) := by
    simp [login, isFalsyStr, he', hp', hu']
  exact ⟨h1, h2, h1.trans h2.symm⟩

theorem login_wrong_password_indistinguishable_witness :
    ("alice@x.io" : String) ≠ "" ∧ ("wrong" : String) ≠ "" ∧
    ("bob@x.io" : String) ≠ "" ∧ ("pw" : String) ≠ "" ∧
    ([{ email := "alice@x.io", password := "hash" }] : List User).find?
      (fun x => x.email == "alice@x.io") = some { email := "alice@x.io", password := "hash" } ∧
    (fun pw st => pw == st) "wrong" "hash" = false ∧
    ([{ email := "alice@x.io", password := "hash" }] : List User).find?
      (fun x => x.email == "bob@x.io") = none ∧
    (login [{ email := "alice@x.io", password := "hash" }] (fun pw st => pw == st)
        (fun _ => "tok") (some "alice@x.io") (some "wrong") =
      HResult.err "Invalid credentials" (some 401) ∧
    login [{ email := "alice@x.io", password := "hash" }] (fun pw st => pw == st)
        (fun _ => "tok") (some "bob@x.io") (some "pw") =
      HResult.err "Invalid credentials" (some 401) ∧
    login [{ email := "alice@x.io", password := "hash" }] (fun pw st => pw == st)
        (fun _ => "tok") (some "alice@x.io") (some "wrong") =
      login [{ email := "alice@x.io", password := "hash" }] (fun pw st => pw == st)
        (fun _ => "tok") (some "bob@x.io") (some "pw")) :=
  ⟨by decide, by decide, by decide, by decide, rfl, rfl, rfl,
    login_wrong_password_indistinguishable _ _ _ _ _ _ _ _
      (by decide) (by decide) (by decide) (by decide) rfl rfl rfl⟩

lemma findById_eraseP (bs : List Bootcamp) (i : String)
    (hnd : (bs.map Bootcamp._id).Nodup) :
    findById (bs.eraseP fun b => b._id == i) i = none := by
  induction bs with
  | nil => rfl
  | cons a l ih =>
    rw [List.map_cons, List.nodup_cons] at hnd
    rw [List.eraseP_cons]
    by_cases h : a._id == i
    · simp only [h, cond_true]
      rw [findById, List.find?_eq_none]
      intro b hb hbi
      have hai : a._id = i := by simpa using h
      have hbi' : b._id = i := by simpa using hbi
      exact hnd.1 (by
        rw [hai, ← hbi']
        exact List.mem_map_of_mem Bootcamp._id hb)
    · have h' : (a._id == i) = false := by simpa using h
      simp only [h', cond_false]
      rw [findById, List.find?_eq_none]
      intro b hb hbi
      rcases List.mem_cons.mp hb with rfl | hb'
      · exact h hbi
      · have hnone := ih hnd.2
        rw [findById, List.find?_eq_none] at hnone
        exact hnone b hb' hbi

/-- Claim C9: deleting an existing bootcamp removes it (ids are unique in
storage), leaves no course referencing it, and answers
`{ success: true, data: {} }`. -/
theorem deleteBootcamp_cascades (bs : List Bootcamp) (cs : List Course) (i : String)
    (b : Bootcamp)
    (hnd : (bs.map Bootcamp._id).Nodup)
    (hfound : findById bs i = some b) :
    findById (deleteBootcamp bs cs i).1 i = none ∧
    ((deleteBootcamp bs cs i).2.1.filter fun c => c.bootcamp == i).length = 0 ∧
    (deleteBootcamp bs cs i).2.2 = HResult.ok 200 () := by
  have hd : deleteBootcamp bs cs i =
      (bs.eraseP fun b => b._id == i, cs.filter fun c => !(c.bootcamp == i),
        HResult.ok 200 ()) := by
    unfold deleteBootcamp
    rw [hfound]
  rw [hd]
  refine ⟨findById_eraseP bs i hnd, ?_, rfl⟩
  have hnil : ((cs.filter fun c => !(c.bootcamp == i)).filter fun c => c.bootcamp == i) = [] := by
    induction cs with
    | nil => rfl
    | cons a t ih =>
      by_cases h : a.bootcamp == i
      · simp [List.filter_cons, h, ih]
      · simp [List.filter_cons, h, ih]
  rw [hnil]
  rfl

theorem deleteBootcamp_cascades_witness :
    (([{ _id := "b1" }] : List Bootcamp).map Bootcamp._id).Nodup ∧
    findById [{ _id := "b1" }] "b1" = some { _id := "b1" } ∧
    (findById (deleteBootcamp [{ _id := "b1" }]
        [{ _id := "c1", bootcamp := "b1" }, { _id := "c2", bootcamp := "b2" }] "b1").1 "b1" =
        none ∧
      ((deleteBootcamp [{ _id := "b1" }]
        [{ _id := "c1", bootcamp := "b1" }, { _id := "c2", bootcamp := "b2" }] "b1").2.1.filter
          fun c => c.bootcamp == "b1").length = 0 ∧
      (deleteBootcamp [{ _id := "b1" }]
        [{ _id := "c1", bootcamp := "b1" }, { _id := "c2", bootcamp := "b2" }] "b1").2.2 =
        HResult.ok 200 ()) :=
  ⟨by decide, rfl, deleteBootcamp_cascades _ _ _ _ (by decide) rfl⟩

/-- Claim C10: when the id matches no bootcamp, the handler answers 404 and
both collections are returned unchanged. -/
theorem deleteBootcamp_missing_id_no_change (bs : List Bootcamp) (cs : List Course) (i : String)
    (h : findById bs i = none) :
    deleteBootcamp bs cs i =
      (bs, cs, HResult.err ("Bootcamp not found with id of " ++ i) (some 404)) := by
  unfold deleteBootcamp
  rw [h]

theorem deleteBootcamp_missing_id_no_change_witness :
    findById [{ _id := "b2" }] "b1" = none ∧
    deleteBootcamp [{ _id := "b2" }] [{ _id := "c1", bootcamp := "b1" }] "b1" =
      ([{ _id := "b2" }], [{ _id := "c1", bootcamp := "b1" }],
        HResult.err ("Bootcamp not found with id of " ++ "b1") (some 404)) :=
  ⟨rfl, deleteBootcamp_missing_id_no_change _ _ _ rfl⟩

/-- Claim C3, counterexample: the regex rewrite is applied to the whole
serialized query, so the literal value `"in"` of the field `name` is
rewritten to `"$in"` instead of passing through unmodified. -/
theorem translate_value_token_rewritten_counterexample :
    translateQuery [("name", QVal.str "in")] = some [("name", QVal.str "$in")] ∧
    translateQuery [("name", QVal.str "in")] ≠ some [("name", QVal.str "in")] :=
  ⟨rfl, by decide⟩

lemma tryTok_some_drop (t : String) (cs r : List Char) (h : tryTok t cs = some r) :
    r = cs.drop t.toList.length := by
  unfold tryTok at h
  split at h
  · injection h with h'
    exact h'.symm
  · cases h

lemma matchTok_some_spec (cs : List Char) (t : String) (r : List Char)
    (h : matchTok cs = some (t, r)) :
    t ∈ opTokens ∧ r = cs.drop t.toList.length := by
  unfold matchTok at h
  rcases h1 : tryTok "gt" cs with _ | r1 <;> rw [h1] at h
  · rcases h2 : tryTok "gte" cs with _ | r2 <;> rw [h2] at h
    · rcases h3 : tryTok "lt" cs with _ | r3 <;> rw [h3] at h
      · rcases h4 : tryTok "lte" cs with _ | r4 <;> rw [h4] at h
        · rcases h5 : tryTok "in" cs with _ | r5 <;> rw [h5] at h
          · cases h
          · obtain ⟨rfl, rfl⟩ := Prod.mk.inj (Option.some.inj h)
            exact ⟨by decide, tryTok_some_drop _ _ _ h5⟩
        · obtain ⟨rfl, rfl⟩ := Prod.mk.inj (Option.some.inj h)
          exact ⟨by decide, tryTok_some_drop _ _ _ h4⟩
      · obtain ⟨rfl, rfl⟩ := Prod.mk.inj (Option.some.inj h)
        exact ⟨by decide, tryTok_some_drop _ _ _ h3⟩
    · obtain ⟨rfl, rfl⟩ := Prod.mk.inj (Option.some.inj h)
      exact ⟨by decide, tryTok_some_drop _ _ _ h2⟩
  · obtain ⟨rfl, rfl⟩ := Prod.mk.inj (Option.some.inj h)
    exact ⟨by decide, tryTok_some_drop _ _ _ h1⟩

lemma scanAux_skip (l : List Char) : ∀ (k : Nat) (p : Bool),
    scanAux (k + 1) p l = scanAux 0 true (l.drop (k + 1)) := by
  induction l with
  | nil => intro k p; simp [scanAux]
  | cons c rest ih =>
    intro k p
    cases k with
    | zero => simp [scanAux]
    | succ k' =>
      simp only [scanAux, List.drop_succ_cons]
      exact ih k' true

lemma scan_nil (p : Bool) : scan p [] = [] := by cases p <;> rfl

lemma scan_true_cons (c : Char) (rest : List Char) :
    scan true (c :: rest) = c :: scan (isWordChar c) rest := rfl

lemma scan_false_cons_none (c : Char) (rest : List Char)
    (h : matchTok (c :: rest) = none) :
    scan false (c :: rest) = c :: scan (isWordChar c) rest := by
  simp only [scan, scanAux, h]

lemma scan_false_cons_some (c : Char) (rest : List Char) (t : String) (r : List Char)
    (h : matchTok (c :: rest) = some (t, r)) :
    scan false (c :: rest) = '$' :: (t.toList ++ scan true r) := by
  obtain ⟨hmem, hr⟩ := matchTok_some_spec _ _ _ h
  simp only [opTokens, List.mem_cons, List.not_mem_nil, or_false] at hmem
  rcases hmem with rfl | rfl | rfl | rfl | rfl
  · subst hr
    simp only [scan, scanAux, h]
    rw [show "gt".toList.length - 1 = 0 + 1 from rfl, scanAux_skip]
    rfl
  · subst hr
    simp only [scan, scanAux, h]
    rw [show "gte".toList.length - 1 = 1 + 1 from rfl, scanAux_skip]
    rfl
  · subst hr
    simp only [scan, scanAux, h]
    rw [show "lt".toList.length - 1 = 0 + 1 from rfl, scanAux_skip]
    rfl
  · subst hr
    simp only [scan, scanAux, h]
    rw [show "lte".toList.length - 1 = 1 + 1 from rfl, scanAux_skip]
    rfl
  · subst hr
    simp only [scan, scanAux, h]
    rw [show "in".toList.length - 1 = 0 + 1 from rfl, scanAux_skip]
    rfl

lemma tryTok_none_of_head_ne (t : String) (c : Char) (rest : List Char)
    (c0 : Char) (ts : List Char) (ht : t.toList = c0 :: ts) (hne : c ≠ c0) :
    tryTok t (c :: rest) = none := by
  unfold tryTok
  rw [ht]
  split
  · rename_i hcond
    obtain ⟨h1, -⟩ := hcond
    rw [List.length_cons, List.take_succ_cons] at h1
    injection h1 with h1a _
    exact absurd h1a hne
  · rfl

lemma matchTok_none_of_nonword_head (c : Char) (rest : List Char)
    (hc : isWordChar c = false) : matchTok (c :: rest) = none := by
  have hg : c ≠ 'g' := by rintro rfl; exact absurd hc (by decide)
  have hl : c ≠ 'l' := by rintro rfl; exact absurd hc (by decide)
  have hi : c ≠ 'i' := by rintro rfl; exact absurd hc (by decide)
  unfold matchTok
  rw [tryTok_none_of_head_ne "gt" c rest 'g' ['t'] rfl hg,
    tryTok_none_of_head_ne "gte" c rest 'g' ['t', 'e'] rfl hg,
    tryTok_none_of_head_ne "lt" c rest 'l' ['t'] rfl hl,
    tryTok_none_of_head_ne "lte" c rest 'l' ['t', 'e'] rfl hl,
    tryTok_none_of_head_ne "in" c rest 'i' ['n'] rfl hi]

lemma scan_wordrun (l rest : List Char) (h : ∀ c ∈ l, isWordChar c = true) :
    scan true (l ++ rest) = l ++ scan true rest := by
  induction l with
  | nil => simp
  | cons c l' ih =>
    rw [List.cons_append, scan_true_cons, h c (List.mem_cons_self c l'),
      ih fun x hx => h x (List.mem_cons_of_mem c hx)]
    rfl

lemma tryTok_none_of_word_ne (t s : String) (rest : List Char)
    (ht : ∀ c ∈ t.toList, isWordChar c = true)
    (hs : ∀ c ∈ s.toList, isWordChar c = true)
    (hne : s ≠ t) :
    tryTok t (s.toList ++ '"' :: rest) = none := by
  unfold tryTok
  split
  · rename_i hcond
    obtain ⟨h1, h2⟩ := hcond
    exfalso
    rcases Nat.lt_or_ge s.toList.length t.toList.length with hlt | hge
    · rw [List.take_append_eq_append_take,
        List.take_of_length_le (Nat.le_of_lt hlt)] at h1
      have hpos : 0 < t.toList.length - s.toList.length := Nat.sub_pos_of_lt hlt
      have hm : t.toList.length - s.toList.length =
          (t.toList.length - s.toList.length - 1) + 1 :=
        (Nat.succ_pred_eq_of_pos hpos).symm
      rw [hm, List.take_succ_cons] at h1
      have hq : '"' ∈ t.toList := by
        rw [← h1]
        exact List.mem_append_right _ (List.mem_cons_self _ _)
      exact absurd (ht '"' hq) (by decide)
    · rw [List.take_append_of_le_length hge] at h1
      rcases Nat.eq_or_lt_of_le hge with heq | hlt2
      · rw [heq, List.take_length] at h1
        refine hne ?_
        cases s
        cases t
        simp only [String.toList] at h1
        exact congrArg String.mk h1
      · rw [List.drop_append_of_le_length hge] at h2
        rcases hd : List.drop t.toList.length s.toList with _ | ⟨x, xs⟩
        · have hlen := congrArg List.length hd
          rw [List.length_drop] at hlen
          simp only [List.length_nil] at hlen
          omega
        · rw [hd, List.cons_append] at h2
          have hx : x ∈ s.toList :=
            List.mem_of_mem_drop (by rw [hd]; exact List.mem_cons_self x xs)
          have hw := hs x hx
          simp [bdry, hw] at h2
  · rfl

lemma matchTok_none_of_word_notin (s : String) (rest : List Char)
    (hs : ∀ c ∈ s.toList, isWordChar c = true) (hnot : s ∉ opTokens) :
    matchTok (s.toList ++ '"' :: rest) = none := by
  have h1 : s ≠ "gt" := fun he => hnot (by rw [he]; decide)
  have h2 : s ≠ "gte" := fun he => hnot (by rw [he]; decide)
  have h3 : s ≠ "lt" := fun he => hnot (by rw [he]; decide)
  have h4 : s ≠ "lte" := fun he => hnot (by rw [he]; decide)
  have h5 : s ≠ "in" := fun he => hnot (by rw [he]; decide)
  unfold matchTok
  rw [tryTok_none_of_word_ne "gt" s rest (by decide) hs h1,
    tryTok_none_of_word_ne "gte" s rest (by decide) hs h2,
    tryTok_none_of_word_ne "lt" s rest (by decide) hs h3,
    tryTok_none_of_word_ne "lte" s rest (by decide) hs h4,
    tryTok_none_of_word_ne "in" s rest (by decide) hs h5]

lemma scan_word_string (s : String) (rest : List Char) (hs : wordOnlyStr s = true) :
    scan false (s.toList ++ '"' :: rest) = (rwTok s).toList ++ '"' :: scan false rest := by
  have hs' : ∀ c ∈ s.toList, isWordChar c = true := by
    simpa [wordOnlyStr, List.all_eq_true] using hs
  have hq : isWordChar '"' = false := rfl
  by_cases hmem : s ∈ opTokens
  · rw [rwTok, if_pos hmem]
    have hcases : s = "gt" ∨ s = "gte" ∨ s = "lt" ∨ s = "lte" ∨ s = "in" := by
      simpa [opTokens] using hmem
    rcases hcases with rfl | rfl | rfl | rfl | rfl
    · have hm : matchTok ('g' :: 't' :: '"' :: rest) = some ("gt", '"' :: rest) := rfl
      show scan false ('g' :: 't' :: '"' :: rest) = _
      rw [scan_false_cons_some _ _ _ _ hm, scan_true_cons, hq]
      rfl
    · have hm : matchTok ('g' :: 't' :: 'e' :: '"' :: rest) = some ("gte", '"' :: rest) := rfl
      show scan false ('g' :: 't' :: 'e' :: '"' :: rest) = _
      rw [scan_false_cons_some _ _ _ _ hm, scan_true_cons, hq]
      rfl
    · have hm : matchTok ('l' :: 't' :: '"' :: rest) = some ("lt", '"' :: rest) := rfl
      show scan false ('l' :: 't' :: '"' :: rest) = _
      rw [scan_false_cons_some _ _ _ _ hm, scan_true_cons, hq]
      rfl
    · have hm : matchTok ('l' :: 't' :: 'e' :: '"' :: rest) = some ("lte", '"' :: rest) := rfl
      show scan false ('l' :: 't' :: 'e' :: '"' :: rest) = _
      rw [scan_false_cons_some _ _ _ _ hm, scan_true_cons, hq]
      rfl
    · have hm : matchTok ('i' :: 'n' :: '"' :: rest) = some ("in", '"' :: rest) := rfl
      show scan false ('i' :: 'n' :: '"' :: rest) = _
      rw [scan_false_cons_some _ _ _ _ hm, scan_true_cons, hq]
      rfl
  · rw [rwTok, if_neg hmem]
    rcases hsl : s.toList with _ | ⟨c, l'⟩
    · rw [List.nil_append, List.nil_append,
        scan_false_cons_none _ _ (matchTok_none_of_nonword_head '"' rest hq), hq]
    · have hm := matchTok_none_of_word_notin s rest hs' hmem
      rw [hsl, List.cons_append] at hm
      rw [List.cons_append, scan_false_cons_none _ _ hm,
        hs' c (by rw [hsl]; exact List.mem_cons_self c l'),
        scan_wordrun l' _ fun x hx => hs' x (by rw [hsl]; exact List.mem_cons_of_mem c hx),
        scan_true_cons, hq]
      rfl

lemma plainChar_of_wordChar (c : Char) (h : isWordChar c = true) : plainChar c = true := by
  have h1 : c ≠ '"' := by rintro rfl; exact absurd h (by decide)
  have h2 : c ≠ '\\' := by rintro rfl; exact absurd h (by decide)
  have h3 : c ≠ '\n' := by rintro rfl; exact absurd h (by decide)
  have h4 : c ≠ '\t' := by rintro rfl; exact absurd h (by decide)
  have h5 : c ≠ '\r' := by rintro rfl; exact absurd h (by decide)
  simp [plainChar, h1, h2, h3, h4, h5]

lemma escapeChar_of_plain (c : Char) (h : plainChar c = true) : escapeChar c = [c] := by
  by_cases h1 : c = '"'
  · subst h1; exact absurd h (by decide)
  by_cases h2 : c = '\\'
  · subst h2; exact absurd h (by decide)
  by_cases h3 : c = '\n'
  · subst h3; exact absurd h (by decide)
  by_cases h4 : c = '\t'
  · subst h4; exact absurd h (by decide)
  by_cases h5 : c = '\r'
  · subst h5; exact absurd h (by decide)
  simp [escapeChar, h1, h2, h3, h4, h5]

lemma escape_of_plain (s : String) (h : plainStr s = true) : escape s = s.toList := by
  have h' : ∀ c ∈ s.toList, plainChar c = true := by
    simpa [plainStr, List.all_eq_true] using h
  unfold escape
  suffices hgen : ∀ l : List Char, (∀ c ∈ l, plainChar c = true) →
      (l.map escapeChar).flatten = l from hgen _ h'
  intro l
  induction l with
  | nil => intro _; rfl
  | cons c l' ih =>
    intro hl
    simp only [List.map_cons, List.flatten_cons]
    rw [escapeChar_of_plain c (hl c (List.mem_cons_self c l')),
      ih fun x hx => hl x (List.mem_cons_of_mem c hx)]
    rfl

lemma wordOnly_plain (s : String) (h : wordOnlyStr s = true) : plainStr s = true := by
  simp only [wordOnlyStr, List.all_eq_true] at h
  simp only [plainStr, List.all_eq_true]
  exact fun c hc => plainChar_of_wordChar c (h c hc)

lemma plainStr_rwTok (s : String) (h : wordOnlyStr s = true) : plainStr (rwTok s) = true := by
  unfold rwTok
  split
  · have hp := wordOnly_plain s h
    simp only [plainStr, List.all_eq_true] at hp ⊢
    intro c hc
    have hl : ("$" ++ s).toList = '$' :: s.toList := rfl
    rw [hl] at hc
    rcases List.mem_cons.mp hc with rfl | hc'
    · decide
    · exact hp c hc'
  · exact wordOnly_plain s h

lemma scan_quoted (s : String) (tail : List Char) (hs : wordOnlyStr s = true) :
    scan false (quoteStr s ++ tail) = quoteStr (rwTok s) ++ scan false tail := by
  unfold quoteStr
  rw [escape_of_plain s (wordOnly_plain s hs), escape_of_plain _ (plainStr_rwTok s hs)]
  rw [List.cons_append, List.append_assoc, List.singleton_append]
  rw [scan_false_cons_none _ _ (matchTok_none_of_nonword_head '"' _ rfl),
    show isWordChar '"' = false from rfl]
  rw [scan_word_string s _ hs]
  simp [List.cons_append, List.append_assoc]

lemma scan_inner_pair (k v : String) (tail : List Char)
    (hk : wordOnlyStr k = true) (hv : wordOnlyStr v = true) :
    scan false (stringifyInner k v ++ tail) =
      stringifyInner (rwTok k) (rwTok v) ++ scan false tail := by
  unfold stringifyInner
  rw [List.append_assoc, List.cons_append]
  rw [scan_quoted k _ hk]
  rw [scan_false_cons_none _ _ (matchTok_none_of_nonword_head ':' _ rfl),
    show isWordChar ':' = false from rfl]
  rw [scan_quoted v _ hv]
  simp [List.cons_append, List.append_assoc]

lemma scan_members_inner (l : List (String × String)) (tail : List Char)
    (h : ∀ p ∈ l, wordOnlyStr p.1 = true ∧ wordOnlyStr p.2 = true) :
    scan false (joinComma (l.map fun p => stringifyInner p.1 p.2) ++ '}' :: tail) =
      joinComma ((l.map fun p => (rwTok p.1, rwTok p.2)).map fun p =>
        stringifyInner p.1 p.2) ++ '}' :: scan false tail := by
  induction l with
  | nil =>
    simp only [List.map_nil, joinComma, List.nil_append]
    rw [scan_false_cons_none _ _ (matchTok_none_of_nonword_head '}' _ rfl),
      show isWordChar '}' = false from rfl]
  | cons p l' ih =>
    cases l' with
    | nil =>
      simp only [List.map_cons, List.map_nil, joinComma]
      rw [scan_inner_pair p.1 p.2 _ (h p (List.mem_cons_self p [])).1
        (h p (List.mem_cons_self p [])).2]
      rw [scan_false_cons_none _ _ (matchTok_none_of_nonword_head '}' _ rfl),
        show isWordChar '}' = false from rfl]
    | cons p2 l'' =>
      simp only [List.map_cons, joinComma]
      rw [List.append_assoc, List.cons_append]
      rw [scan_inner_pair p.1 p.2 _ (h p (List.mem_cons_self p _)).1
        (h p (List.mem_cons_self p _)).2]
      rw [scan_false_cons_none _ _ (matchTok_none_of_nonword_head ',' _ rfl),
        show isWordChar ',' = false from rfl]
      have ih' := ih fun x hx => h x (List.mem_cons_of_mem p hx)
      simp only [List.map_cons] at ih'
      rw [ih']
      simp [List.cons_append, List.append_assoc]

lemma scan_val (v : QVal) (tail : List Char) (hv : valWordOnly v = true) :
    scan false (stringifyVal v ++ tail) = stringifyVal (rwVal v) ++ scan false tail := by
  cases v with
  | str s => exact scan_quoted s tail hv
  | obj l =>
    have hl : ∀ p ∈ l, wordOnlyStr p.1 = true ∧ wordOnlyStr p.2 = true := by
      simpa [valWordOnly, List.all_eq_true, Bool.and_eq_true] using hv
    simp only [stringifyVal, rwVal]
    rw [List.cons_append, List.append_assoc, List.singleton_append]
    rw [scan_false_cons_none _ _ (matchTok_none_of_nonword_head '{' _ rfl),
      show isWordChar '{' = false from rfl]
    rw [scan_members_inner l _ hl]
    simp [List.cons_append, List.append_assoc]

lemma scan_top_pair (k : String) (v : QVal) (tail : List Char)
    (hk : wordOnlyStr k = true) (hv : valWordOnly v = true) :
    scan false (stringifyPair k v ++ tail) =
      stringifyPair (rwTok k) (rwVal v) ++ scan false tail := by
  unfold stringifyPair
  rw [List.append_assoc, List.cons_append]
  rw [scan_quoted k _ hk]
  rw [scan_false_cons_none _ _ (matchTok_none_of_nonword_head ':' _ rfl),
    show isWordChar ':' = false from rfl]
  rw [scan_val v _ hv]
  simp [List.cons_append, List.append_assoc]

lemma scan_members_top (q : RawQuery) (tail : List Char)
    (h : ∀ p ∈ q, wordOnlyStr p.1 = true ∧ valWordOnly p.2 = true) :
    scan false (joinComma (q.map fun p => stringifyPair p.1 p.2) ++ '}' :: tail) =
      joinComma ((rwQuery q).map fun p => stringifyPair p.1 p.2) ++ '}' :: scan false tail := by
  induction q with
  | nil =>
    simp only [List.map_nil, joinComma, List.nil_append, rwQuery]
    rw [scan_false_cons_none _ _ (matchTok_none_of_nonword_head '}' _ rfl),
      show isWordChar '}' = false from rfl]
  | cons p l' ih =>
    cases l' with
    | nil =>
      simp only [List.map_cons, List.map_nil, joinComma, rwQuery]
      rw [scan_top_pair p.1 p.2 _ (h p (List.mem_cons_self p [])).1
        (h p (List.mem_cons_self p [])).2]
      rw [scan_false_cons_none _ _ (matchTok_none_of_nonword_head '}' _ rfl),
        show isWordChar '}' = false from rfl]
    | cons p2 l'' =>
      simp only [List.map_cons, joinComma, rwQuery]
      rw [List.append_assoc, List.cons_append]
      rw [scan_top_pair p.1 p.2 _ (h p (List.mem_cons_self p _)).1
        (h p (List.mem_cons_self p _)).2]
      rw [scan_false_cons_none _ _ (matchTok_none_of_nonword_head ',' _ rfl),
        show isWordChar ',' = false from rfl]
      have ih' := ih fun x hx => h x (List.mem_cons_of_mem p hx)
      simp only [List.map_cons, rwQuery] at ih'
      rw [ih']
      simp [List.cons_append, List.append_assoc]

lemma scan_stringify (q : RawQuery) (h : queryWordOnly q = true) :
    scan false (stringifyQuery q) = stringifyQuery (rwQuery q) := by
  have h' : ∀ p ∈ q, wordOnlyStr p.1 = true ∧ valWordOnly p.2 = true := by
    simpa [queryWordOnly, List.all_eq_true, Bool.and_eq_true] using h
  unfold stringifyQuery
  rw [scan_false_cons_none _ _ (matchTok_none_of_nonword_head '{' _ rfl),
    show isWordChar '{' = false from rfl]
  rw [show (['}'] : List Char) = '}' :: [] from rfl, scan_members_top q [] h', scan_nil]

lemma parseStringBody_inv (l rest : List Char) (h : ∀ c ∈ l, plainChar c = true) :
    parseStringBody (l ++ '"' :: rest) = some (l, rest) := by
  induction l with
  | nil =>
    rw [List.nil_append, parseStringBody.eq_def]
    simp
  | cons c l' ih =>
    have hc := h c (List.mem_cons_self c l')
    have h1 : (c == '"') = false := by
      cases hb : c == '"'
      · rfl
      · have hcq : c = '"' := by simpa using hb
        subst hcq; exact absurd hc (by decide)
    have h2 : (c == '\\') = false := by
      cases hb : c == '\\'
      · rfl
      · have hcq : c = '\\' := by simpa using hb
        subst hcq; exact absurd hc (by decide)
    rw [List.cons_append, parseStringBody.eq_def]
    simp only [h1, h2, Bool.false_eq_true, if_false]
    rw [ih fun x hx => h x (List.mem_cons_of_mem c hx)]

lemma parseJString_inv (s : String) (rest : List Char) (h : plainStr s = true) :
    parseJString (quoteStr s ++ rest) = some (s, rest) := by
  have h' : ∀ c ∈ s.toList, plainChar c = true := by
    simpa [plainStr, List.all_eq_true] using h
  show (match parseStringBody (escape s ++ ['"'] ++ rest) with
        | some (l, r) => some ((⟨l⟩ : String), r)
        | none => none) = some (s, rest)
  rw [escape_of_plain s h, List.append_assoc, List.singleton_append,
    parseStringBody_inv s.toList rest h']
  rfl

lemma parseInnerMembers_inv (l : List (String × String)) :
    ∀ (fuel : Nat) (rest : List Char), l ≠ [] → l.length ≤ fuel →
    (∀ p ∈ l, plainStr p.1 = true ∧ plainStr p.2 = true) →
    parseInnerMembers fuel
        (joinComma (l.map fun p => stringifyInner p.1 p.2) ++ '}' :: rest) =
      some (l, rest) := by
  induction l with
  | nil => intro fuel rest hne _ _; exact absurd rfl hne
  | cons p l' ih =>
    intro fuel rest _ hlen hpl
    have hk : plainStr p.1 = true := (hpl p (List.mem_cons_self p l')).1
    have hv : plainStr p.2 = true := (hpl p (List.mem_cons_self p l')).2
    cases fuel with
    | zero => exact absurd hlen (by simp)
    | succ fuel' =>
      cases l' with
      | nil =>
        simp only [List.map_cons, List.map_nil, joinComma, stringifyInner,
          List.append_assoc, List.cons_append]
        rw [parseInnerMembers.eq_def]
        simp only []
        rw [parseJString_inv p.1 _ hk]
        simp only []
        rw [parseJString_inv p.2 _ hv]
        rfl
      | cons p2 l'' =>
        simp only [List.map_cons, joinComma, stringifyInner,
          List.append_assoc, List.cons_append]
        rw [parseInnerMembers.eq_def]
        simp only []
        rw [parseJString_inv p.1 _ hk]
        simp only []
        rw [parseJString_inv p.2 _ hv]
        simp only []
        have ih' := ih fuel' rest (by simp) (by
          simp only [List.length_cons] at hlen ⊢
          omega) fun x hx => hpl x (List.mem_cons_of_mem p hx)
        simp only [List.map_cons, joinComma, stringifyInner,
          List.append_assoc, List.cons_append] at ih'
        rw [ih']

lemma joinComma_inner_head (k v : String) (es : List (List Char)) :
    ∃ X, joinComma (stringifyInner k v :: es) = '"' :: X := by
  cases es with
  | nil => exact ⟨(escape k ++ ['"']) ++ (':' :: quoteStr v), rfl⟩
  | cons e2 es' =>
    refine ⟨escape k ++ ('"' :: (':' :: ('"' :: (escape v ++
      ('"' :: (',' :: joinComma (e2 :: es'))))))), ?_⟩
    simp [joinComma, stringifyInner, quoteStr, List.cons_append,
      List.append_assoc, List.singleton_append]

lemma joinComma_top_head (k : String) (v : QVal) (es : List (List Char)) :
    ∃ X, joinComma (stringifyPair k v :: es) = '"' :: X := by
  cases es with
  | nil => exact ⟨(escape k ++ ['"']) ++ (':' :: stringifyVal v), rfl⟩
  | cons e2 es' =>
    refine ⟨escape k ++ ('"' :: (':' :: (stringifyVal v ++
      (',' :: joinComma (e2 :: es'))))), ?_⟩
    simp [joinComma, stringifyPair, quoteStr, List.cons_append,
      List.append_assoc, List.singleton_append]

lemma parseValue_inv (v : QVal) (fuel : Nat) (rest : List Char)
    (hv : valPlain v = true) (hfuel : innerLen v ≤ fuel) :
    parseValue fuel (stringifyVal v ++ rest) = some (v, rest) := by
  cases v with
  | str s =>
    show (match parseJString (quoteStr s ++ rest) with
          | some (s', r) => some (QVal.str s', r)
          | none => none) = some (QVal.str s, rest)
    rw [parseJString_inv s rest hv]
  | obj l =>
    cases l with
    | nil => rfl
    | cons p l' =>
      have hpl : ∀ x ∈ p :: l', plainStr x.1 = true ∧ plainStr x.2 = true := by
        simpa [valPlain, List.all_eq_true, Bool.and_eq_true] using hv
      have hfl : (p :: l').length ≤ fuel := by simpa [innerLen] using hfuel
      obtain ⟨X, hX⟩ :=
        joinComma_inner_head p.1 p.2 (l'.map fun x => stringifyInner x.1 x.2)
      have hform : stringifyVal (QVal.obj (p :: l')) ++ rest =
          '{' :: ('"' :: (X ++ '}' :: rest)) := by
        simp only [stringifyVal, List.map_cons]
        rw [hX]
        simp [List.cons_append, List.append_assoc, List.singleton_append]
      rw [hform]
      show (match parseInnerMembers fuel ('"' :: (X ++ '}' :: rest)) with
            | some (l, r) => some (QVal.obj l, r)
            | none => none) = some (QVal.obj (p :: l'), rest)
      have harg : ('"' :: (X ++ '}' :: rest)) =
          joinComma ((p :: l').map fun x => stringifyInner x.1 x.2) ++ '}' :: rest := by
        rw [List.map_cons, hX]
        rfl
      rw [harg, parseInnerMembers_inv (p :: l') fuel rest (by simp) hfl hpl]

lemma parseTopMembers_inv (q : RawQuery) :
    ∀ (fuel : Nat) (rest : List Char), q ≠ [] → queryWeight q ≤ fuel →
    (∀ p ∈ q, plainStr p.1 = true ∧ valPlain p.2 = true) →
    parseTopMembers fuel
        (joinComma (q.map fun p => stringifyPair p.1 p.2) ++ '}' :: rest) =
      some (q, rest) := by
  induction q with
  | nil => intro fuel rest hne _ _; exact absurd rfl hne
  | cons p l' ih =>
    intro fuel rest _ hlen hpl
    have hk : plainStr p.1 = true := (hpl p (List.mem_cons_self p l')).1
    have hv : valPlain p.2 = true := (hpl p (List.mem_cons_self p l')).2
    cases fuel with
    | zero =>
      exfalso
      simp only [queryWeight] at hlen
      omega
    | succ fuel' =>
      have hb : innerLen p.2 + queryWeight l' ≤ fuel' := by
        simp only [queryWeight] at hlen
        omega
      have hfv : innerLen p.2 ≤ fuel' := by omega
      cases l' with
      | nil =>
        simp only [List.map_cons, List.map_nil, joinComma, stringifyPair,
          List.append_assoc, List.cons_append]
        rw [parseTopMembers.eq_def]
        simp only []
        rw [parseJString_inv p.1 _ hk]
        simp only []
        rw [parseValue_inv p.2 fuel' _ hv hfv]
        rfl
      | cons p2 l'' =>
        simp only [List.map_cons, joinComma, stringifyPair,
          List.append_assoc, List.cons_append]
        rw [parseTopMembers.eq_def]
        simp only []
        rw [parseJString_inv p.1 _ hk]
        simp only []
        rw [parseValue_inv p.2 fuel' _ hv hfv]
        simp only []
        have ih' := ih fuel' rest (by simp) (by
          simp only [queryWeight] at hb ⊢
          omega) fun x hx => hpl x (List.mem_cons_of_mem p hx)
        simp only [List.map_cons, joinComma, stringifyPair,
          List.append_assoc, List.cons_append] at ih'
        rw [ih']

lemma stringifyInner_len (k v : String) : 1 ≤ (stringifyInner k v).length := by
  simp [stringifyInner, quoteStr, List.length_append]

lemma inner_count_le (l : List (String × String)) :
    l.length ≤ (joinComma (l.map fun p => stringifyInner p.1 p.2)).length := by
  induction l with
  | nil => simp [joinComma]
  | cons p l' ih =>
    cases l' with
    | nil =>
      simp only [List.map_cons, List.map_nil, joinComma, List.length_cons,
        List.length_nil]
      have := stringifyInner_len p.1 p.2
      omega
    | cons p2 l'' =>
      simp only [List.map_cons, joinComma, List.length_cons, List.length_append] at ih ⊢
      have := stringifyInner_len p.1 p.2
      omega

lemma weight_entry (k : String) (v : QVal) : 1 + innerLen v ≤ (stringifyPair k v).length := by
  cases v with
  | str s =>
    simp [stringifyPair, innerLen, quoteStr, stringifyVal, List.length_append]
  | obj l =>
    have := inner_count_le l
    simp only [stringifyPair, innerLen, quoteStr, stringifyVal, List.length_append,
      List.length_cons]
    omega

lemma le_joinComma_length (q : RawQuery) :
    queryWeight q ≤ (joinComma (q.map fun p => stringifyPair p.1 p.2)).length := by
  induction q with
  | nil => simp [queryWeight, joinComma]
  | cons p l' ih =>
    cases l' with
    | nil =>
      have := weight_entry p.1 p.2
      simp only [List.map_cons, List.map_nil, joinComma, queryWeight]
      omega
    | cons p2 l'' =>
      have := weight_entry p.1 p.2
      simp only [List.map_cons, joinComma, queryWeight, List.length_append,
        List.length_cons] at ih ⊢
      omega

lemma jsonParse_inv (q : RawQuery) (hq : queryPlain q = true) :
    jsonParse (stringifyQuery q) = some q := by
  cases q with
  | nil => rfl
  | cons p l' =>
    have hpl : ∀ x ∈ p :: l', plainStr x.1 = true ∧ valPlain x.2 = true := by
      simpa [queryPlain, List.all_eq_true, Bool.and_eq_true] using hq
    obtain ⟨X, hX⟩ :=
      joinComma_top_head p.1 p.2 (l'.map fun x => stringifyPair x.1 x.2)
    have hform : stringifyQuery (p :: l') = '{' :: ('"' :: (X ++ ['}'])) := by
      simp only [stringifyQuery, List.map_cons]
      rw [hX]
      simp [List.cons_append, List.append_assoc, List.singleton_append]
    have hjl : (joinComma ((p :: l').map fun x => stringifyPair x.1 x.2)).length =
        X.length + 1 := by
      simp only [List.map_cons]
      rw [hX]
      simp
    have hwt : queryWeight (p :: l') ≤ X.length + 1 := by
      have := le_joinComma_length (p :: l')
      rw [hjl] at this
      exact this
    rw [hform]
    show (match parseTopMembers ('{' :: ('"' :: (X ++ ['}']))).length
            ('"' :: (X ++ ['}'])) with
          | some (q', []) => some q'
          | _ => none) = some (p :: l')
    have harg : ('"' :: (X ++ ['}'])) =
        joinComma ((p :: l').map fun x => stringifyPair x.1 x.2) ++ '}' :: ([] : List Char) := by
      rw [List.map_cons, hX]
      rfl
    have hlen : queryWeight (p :: l') ≤ ('{' :: ('"' :: (X ++ ['}']))).length := by
      simp only [List.length_cons, List.length_append]
      omega
    rw [harg, parseTopMembers_inv (p :: l') _ [] (by simp) (by
      rw [← harg]
      exact le_trans hwt (by simp)) hpl]

lemma valPlain_rwVal (v : QVal) (h : valWordOnly v = true) : valPlain (rwVal v) = true := by
  cases v with
  | str s => exact plainStr_rwTok s h
  | obj l =>
    simp only [valWordOnly, List.all_eq_true, Bool.and_eq_true] at h
    simp only [rwVal, valPlain, List.all_eq_true]
    intro c hc
    obtain ⟨p, hp, rfl⟩ := List.mem_map.mp hc
    simp only [Bool.and_eq_true]
    exact ⟨plainStr_rwTok _ (h p hp).1, plainStr_rwTok _ (h p hp).2⟩

lemma queryPlain_rwQuery (q : RawQuery) (h : queryWordOnly q = true) :
    queryPlain (rwQuery q) = true := by
  simp only [queryWordOnly, List.all_eq_true, Bool.and_eq_true] at h
  simp only [rwQuery, queryPlain, List.all_eq_true]
  intro x hx
  obtain ⟨p, hp, rfl⟩ := List.mem_map.mp hx
  simp only [Bool.and_eq_true]
  exact ⟨plainStr_rwTok _ (h p hp).1, valPlain_rwVal _ (h p hp).2⟩

/-- Claim C3, amended: over queries whose keys and strings are single words,
the translator is exactly the map that `$`-prefixes every standalone
occurrence of `gt`/`gte`/`lt`/`lte`/`in` — nested operator keys become
`$`-operators with the outer key and the value preserved, but operator
tokens standing as outer field names or as literal string values are
rewritten too, every other word passes through unchanged, and the
translation never fails. -/
theorem translate_wordOnly_characterization (q : RawQuery)
    (h : queryWordOnly (removeFields q) = true) :
    translateQuery q = some (rwQuery (removeFields q)) := by
  unfold translateQuery
  rw [scan_stringify (removeFields q) h]
  exact jsonParse_inv (rwQuery (removeFields q)) (queryPlain_rwQuery _ h)

theorem translate_wordOnly_characterization_witness :
    queryWordOnly (removeFields [("averageCost", QVal.obj [("lte", "10000")]),
      ("name", QVal.str "in"), ("limit", QVal.str "2")]) = true ∧
    translateQuery [("averageCost", QVal.obj [("lte", "10000")]),
      ("name", QVal.str "in"), ("limit", QVal.str "2")] =
      some (rwQuery (removeFields [("averageCost", QVal.obj [("lte", "10000")]),
        ("name", QVal.str "in"), ("limit", QVal.str "2")])) :=
  ⟨by decide, translate_wordOnly_characterization _ (by decide)⟩
